import Mathlib

/-!
Verification of the pdns-sensor repository: a shallow embedding of the
deduplicated ingestion queue (pkg/models/queue.go), the domain validator
(cmd/pdns-sensor/main.go, `IsDomain` / `IsValidDomain`), the batch
submitter tick body (pkg/submitter, chunked variant) and the tcpdump
field filter (pkg/sources tcpdump `Start`), together with proofs of the
specification's testable properties.

Strings are modelled as Lean `String` (lists of characters); the inputs
of interest are ASCII, where Go's byte-wise operations and the character
level model agree.
-/

set_option maxRecDepth 10000

/-- Character-level ASCII lowercasing, the effect of Go `strings.ToLower`
on the ASCII inputs of this development: `A`..`Z` map to `a`..`z`, every
other character is unchanged. -/
def lowerChar (c : Char) : Char :=
  if 65 ≤ c.toNat ∧ c.toNat ≤ 90 then Char.ofNat (c.toNat + 32) else c

/-- Embedding of `strings.ToLower` (restricted to ASCII). -/
def sToLower (s : String) : String :=
  String.mk (s.data.map lowerChar)

/-- Linear membership scan over a list of strings: the loop
`for _, d := range q.Domains { if d == domain { ... } }` in
`DomainQueue.Add`, and key lookup in the modelled cache. -/
def listMem (x : String) : List String → Bool
  | [] => false
  | y :: ys => if x = y then true else listMem x ys

/-- Does `w` start with `s`? Helper for the suffix test below. -/
def startsWithL : List Char → List Char → Bool
  | _, [] => true
  | [], _ :: _ => false
  | a :: as, b :: bs => if a = b then startsWithL as bs else false

/-- Embedding of Go `strings.HasSuffix(w, s)`. -/
def hasSuffixL (w s : List Char) : Bool :=
  startsWithL w.reverse s.reverse

/-- Embedding of Go `strings.TrimSuffix(w, s)`: removes one trailing
occurrence of `s` when present. -/
def trimSuffixL (w s : List Char) : List Char :=
  if hasSuffixL w s = true then w.take (w.length - s.length) else w

/-- The regex character class `[a-z0-9]`. -/
def isAl (c : Char) : Bool :=
  (('a' ≤ c ∧ c ≤ 'z') : Bool) || (('0' ≤ c ∧ c ≤ '9') : Bool)

/-- The regex character class `[a-z0-9-]`. -/
def isAlH (c : Char) : Bool :=
  isAl c || ((c = '-') : Bool)

/-- First character satisfies `isAl` (false on the empty list). -/
def headAl : List Char → Bool
  | [] => false
  | c :: _ => isAl c

/-- Last character satisfies `isAl` (false on the empty list). -/
def lastAl (l : List Char) : Bool :=
  headAl l.reverse

/-- The language of the regex piece `[a-z0-9](?:[a-z0-9-]{0,61}[a-z0-9])?`
from `IsDomain` (cmd/pdns-sensor/main.go): a label of 1 to 63 characters
over `[a-z0-9-]` whose first and last characters are in `[a-z0-9]`. -/
def labelOK (l : List Char) : Bool :=
  decide (1 ≤ l.length) && decide (l.length ≤ 63) && l.all isAlH && headAl l && lastAl l

/-- The language of the final regex piece `[a-z0-9][a-z0-9-]{0,61}[a-z0-9]`
from `IsDomain`: like `labelOK` but at least 2 characters long. -/
def finalOK (l : List Char) : Bool :=
  decide (2 ≤ l.length) && decide (l.length ≤ 63) && l.all isAlH && headAl l && lastAl l

/-- Embedding of Go `strings.Split(w, ".")`: the list of (possibly empty)
runs of `w` between dots; always nonempty. -/
def splitDots : List Char → List (List Char)
  | [] => [[]]
  | c :: rest =>
    if c = '.' then [] :: splitDots rest
    else
      match splitDots rest with
      | [] => [[c]]
      | p :: ps => (c :: p) :: ps

/-- Inverse of `splitDots`: rejoins parts with `.` between them. -/
def unsplitDots : List (List Char) → List Char
  | [] => []
  | [p] => p
  | p :: q :: ps => p ++ '.' :: unsplitDots (q :: ps)

/-- Whole-string membership in the language of the `IsDomain` regex
`(?:[a-z0-9](?:[a-z0-9-]{0,61}[a-z0-9])?\.)+[a-z0-9][a-z0-9-]{0,61}[a-z0-9]`:
since no label may contain a dot, a string is in the language exactly when
its dot-split has at least two parts, every part but the last is a
`labelOK` label, and the last part is a `finalOK` label. -/
def dnsAnchored (w : List Char) : Bool :=
  match (splitDots w).getLast? with
  | none => false
  | some f =>
    decide (2 ≤ (splitDots w).length) && (splitDots w).dropLast.all labelOK && finalOK f

/-- All contiguous initial segments of a list. -/
def initsL : List Char → List (List Char)
  | [] => [[]]
  | c :: rest => [] :: (initsL rest).map (fun p => c :: p)

/-- All contiguous final segments of a list. -/
def tailsL : List Char → List (List Char)
  | [] => [[]]
  | c :: rest => (c :: rest) :: tailsL rest

/-- Embedding of `IsDomain` (cmd/pdns-sensor/main.go lines 26-29):
Go `regexp.MatchString` performs a non-anchored search, so the result is
whether SOME contiguous substring of `w` is in the regex's language. -/
def IsDomainL (w : List Char) : Bool :=
  (tailsL w).any (fun t => (initsL t).any dnsAnchored)

/-- Embedding of `IsValidDomain` (cmd/pdns-sensor/main.go lines 31-47).
The same function is invoked by the queue as `utils.IsValidDomain`, whose
definition file is absent from the snapshot; the spec's Validator contract
(section 4.1) describes exactly this function, so it also serves as the
model of the missing `utils.IsValidDomain`. -/
def IsValidDomainL (w : List Char) : Bool :=
  if w.length < 3 ∨ 253 < w.length then false
  else if hasSuffixL w ((".local").data) = true ∨ hasSuffixL w ((".localhost").data) = true then false
  else if (splitDots w).length < 2 then false
  else IsDomainL w

/-- String-level wrapper of the validator. -/
def IsValidDomainS (s : String) : Bool :=
  IsValidDomainL s.data

example : IsValidDomainS ("a.com") = true := by decide
example : IsValidDomainS ("EXAMPLE.COM") = false := by decide
example : IsValidDomainS ("example.com") = true := by decide
example : IsValidDomainS ("x.local") = false := by decide
example : IsValidDomainS ("a.b") = false := by decide
example : IsValidDomainS ("-ab.cd") = true := by decide
example : sToLower ("A.COM") = ("a.com") := by decide

/-- The Domain Queue state (pkg/models/queue.go): the ordered collection
`Domains`, and the Dedup Cache modelled by its set of resident
(non-expired) keys, as allowed by the `CacheInterface` contract
(`Get` reports key presence, `SetEx` inserts a key). The mutex only
serializes calls and carries no data, so it has no counterpart here;
`cacheTTL` is threaded but never inspected by the queue's logic. -/
structure DomainQueue where
  Domains : List String
  cache : List String
  cacheTTL : Int
deriving DecidableEq, Repr

/-- Embedding of `DomainQueue.Add` (pkg/models/queue.go lines 22-41):
lowercase, return if the cache holds the key, return if the validator
rejects, return if already in the collection, otherwise append and write
the cache key. The validator is `utils.IsValidDomain`, modelled by
`IsValidDomainS` (see its doc comment). -/
def DomainQueue.Add (q : DomainQueue) (domain : String) : DomainQueue :=
  let d := sToLower domain
  if listMem d q.cache = true then q
  else if IsValidDomainS d = false then q
  else if listMem d q.Domains = true then q
  else { q with Domains := q.Domains ++ [d], cache := d :: q.cache }

/-- Embedding of `DomainQueue.Get` (pkg/models/queue.go lines 43-50):
returns a copy of the collection and the queue with the collection
cleared. -/
def DomainQueue.Get (q : DomainQueue) : List String × DomainQueue :=
  (q.Domains, { q with Domains := [] })

/-- Embedding of `DomainQueue.Count` (pkg/models/queue.go lines 52-56). -/
def DomainQueue.Count (q : DomainQueue) : Nat :=
  q.Domains.length

/-- Embedding of `NewDomainQueue` (pkg/models/queue.go lines 58-65). -/
def NewDomainQueue (cache : List String) (cacheTTL : Int) : DomainQueue :=
  { Domains := [], cache := cache, cacheTTL := cacheTTL }

/-- Specification function for Drain: the sequence of domains the queue
admits (in order) when the inputs are offered one by one to a queue whose
collection currently holds `resident` and whose cache holds `cache`.
Follows the admission policy of `DomainQueue.Add` step by step. -/
def admittedFrom (cache resident : List String) : List String → List String
  | [] => []
  | d :: rest =>
    let d' := sToLower d
    if listMem d' cache = true then admittedFrom cache resident rest
    else if IsValidDomainS d' = false then admittedFrom cache resident rest
    else if listMem d' resident = true then admittedFrom cache resident rest
    else d' :: admittedFrom (d' :: cache) (resident ++ [d']) rest

/-- Embedding of the per-tick body of `Submitter.QueueSubmitter`
(pkg/submitter, chunked variant, lines 17-39): starting at offset `i`,
slice `domains[i:min(i+1024, len)]`, call the delivery client on the
slice, record the batch with the client's verdict, and continue at
`i + 1024` regardless of the verdict. The client is an arbitrary
function to `Bool` (`true` = delivery succeeded). -/
def queueTick (client : List String → Bool) (domains : List String) (i : Nat) :
    List (List String × Bool) :=
  if h : i < domains.length then
    let batch := (domains.drop i).take 1024
    (batch, client batch) :: queueTick client domains (i + 1024)
  else []
termination_by domains.length - i
decreasing_by
  omega

/-- The chunk decomposition the submitter performs: consecutive slices of
at most 1024 elements, in order. -/
def chunks1024 (ds : List String) : List (List String) :=
  if h : ds = [] then []
  else ds.take 1024 :: chunks1024 (ds.drop 1024)
termination_by ds.length
decreasing_by
  simp only [List.length_drop]
  have hp : 0 < ds.length := List.length_pos.mpr h
  omega

/-- Embedding of the field filter of the tcpdump source's `Start` loop
(pkg/sources tcpdump): a whitespace field is considered only if it ends
with a dot; the dot is trimmed, the field validated with
`utils.IsValidDomain` (before any lowercasing), and only then admitted
to the queue. -/
def processField (q : DomainQueue) (field : String) : DomainQueue :=
  if hasSuffixL field.data (".").data = false then q
  else
    let f := String.mk (trimSuffixL field.data (".").data)
    if IsValidDomainS f = false then q
    else q.Add f

/-- Spec-side predicate (refinement target for the validator claims),
written from the spec's data-model words: a label is 1 to 63 characters
over `[a-z0-9-]`, not starting or ending with `-`. -/
def specGrammarLabel (l : List Char) : Bool :=
  decide (1 ≤ l.length) && decide (l.length ≤ 63) && l.all isAlH &&
    !(startsWithL l (['-'])) && !(startsWithL l.reverse (['-']))

/-- Spec-side predicate, written from the spec's words: an admissible
domain name has length in `[3,253]`, at least one separator producing at
least two labels, does not end in `.local` or `.localhost`, and as a
whole matches the structural DNS grammar (every dot-separated label is a
`specGrammarLabel`). -/
def SpecAdmissible (w : List Char) : Bool :=
  decide (3 ≤ w.length) && decide (w.length ≤ 253) &&
    decide (2 ≤ (splitDots w).length) &&
    !(hasSuffixL w ((".local").data)) && !(hasSuffixL w ((".localhost").data)) &&
    (splitDots w).all specGrammarLabel

/-- Whole-string membership in the language denoted by the regex of
`IsDomain`, stated compositionally as the regex reads: one or more
`labelOK` labels each followed by a dot, then one `finalOK` label. -/
def InLang (mid : List Char) : Prop :=
  ∃ ls f, ls ≠ [] ∧ (∀ l ∈ ls, labelOK l = true) ∧ finalOK f = true ∧
    mid = (ls.map (fun l => l ++ ['.'])).flatten ++ f

example : SpecAdmissible (("-ab.cd").data) = false := by decide
example : SpecAdmissible (("a.b").data) = true := by decide
example :
    ((((NewDomainQueue ([]) 3600).Add ("a.com")).Add ("A.COM")).Add ("b.org")).Count = 2 := by
  decide
example :
    (((NewDomainQueue ([]) 3600).Add ("x.local")).Add ("x.local")).Count = 0 := by decide

theorem listMem_iff (x : String) (l : List String) : listMem x l = true ↔ x ∈ l := by
  induction l with
  | nil => simp [listMem]
  | cons y ys ih =>
    by_cases h : x = y
    · subst h
      simp [listMem]
    · simp [listMem, h, ih]

theorem listMem_eq_false (x : String) (l : List String) : listMem x l = false ↔ x ∉ l := by
  rw [← Bool.not_eq_true, not_iff_not]
  exact listMem_iff x l

/-- Shorthand for the admission condition of `Add` on the lowercased
input: not cache-resident, valid, and not already in the collection. -/
def admits (q : DomainQueue) (d : String) : Prop :=
  listMem (sToLower d) q.cache = false ∧ IsValidDomainS (sToLower d) = true ∧
    listMem (sToLower d) q.Domains = false

instance (q : DomainQueue) (d : String) : Decidable (admits q d) := by
  unfold admits
  infer_instance

theorem add_of_admits (q : DomainQueue) (d : String) (h : admits q d) :
    q.Add d = { q with Domains := q.Domains ++ [sToLower d],
                       cache := sToLower d :: q.cache } := by
  obtain ⟨h1, h2, h3⟩ := h
  simp [DomainQueue.Add, h1, h2, h3]

theorem add_of_not_admits (q : DomainQueue) (d : String) (h : ¬ admits q d) :
    q.Add d = q := by
  unfold admits at h
  by_cases h1 : listMem (sToLower d) q.cache = true
  · simp [DomainQueue.Add, h1]
  · rw [Bool.not_eq_true] at h1
    by_cases h2 : IsValidDomainS (sToLower d) = false
    · simp [DomainQueue.Add, h1, h2]
    · rw [Bool.not_eq_false] at h2
      by_cases h3 : listMem (sToLower d) q.Domains = true
      · simp [DomainQueue.Add, h2, h3]
      · rw [Bool.not_eq_true] at h3
        exact absurd ⟨h1, h2, h3⟩ h

theorem queue_add_idem (q : DomainQueue) (d : String) : (q.Add d).Add d = q.Add d := by
  by_cases h : admits q d
  · rw [add_of_admits q d h]
    apply add_of_not_admits
    intro hcon
    obtain ⟨hc, _, _⟩ := hcon
    rw [listMem_eq_false] at hc
    exact hc (by simp)
  · rw [add_of_not_admits q d h, add_of_not_admits q d h]

theorem add_count_eq (q : DomainQueue) (d : String) :
    (q.Add d).Count = q.Count + (if admits q d then 1 else 0) := by
  by_cases h : admits q d
  · rw [add_of_admits q d h, if_pos h]
    simp [DomainQueue.Count]
  · rw [add_of_not_admits q d h, if_neg h]
    simp

theorem add_nodup (q : DomainQueue) (d : String) (h : q.Domains.Nodup) :
    (q.Add d).Domains.Nodup := by
  by_cases ha : admits q d
  · rw [add_of_admits q d ha]
    have hnm : sToLower d ∉ q.Domains := (listMem_eq_false _ _).mp ha.2.2
    simp [List.nodup_append, h, hnm]
  · rw [add_of_not_admits q d ha]
    exact h

theorem foldAdd_domains (inputs : List String) :
    ∀ q : DomainQueue,
      (List.foldl DomainQueue.Add q inputs).Domains =
        q.Domains ++ admittedFrom q.cache q.Domains inputs := by
  induction inputs with
  | nil => intro q; simp [admittedFrom]
  | cons d rest ih =>
    intro q
    by_cases h1 : listMem (sToLower d) q.cache = true
    · have hq : q.Add d = q := by simp [DomainQueue.Add, h1]
      simp only [List.foldl_cons, hq, ih q, admittedFrom, h1, if_pos]
    · rw [Bool.not_eq_true] at h1
      by_cases h2 : IsValidDomainS (sToLower d) = false
      · have hq : q.Add d = q := by simp [DomainQueue.Add, h1, h2]
        simp only [List.foldl_cons, hq, ih q]
        simp [admittedFrom, h1, h2]
      · rw [Bool.not_eq_false] at h2
        by_cases h3 : listMem (sToLower d) q.Domains = true
        · have hq : q.Add d = q := by simp [DomainQueue.Add, h2, h3]
          simp only [List.foldl_cons, hq, ih q]
          simp [admittedFrom, h1, h2, h3]
        · rw [Bool.not_eq_true] at h3
          have hq := add_of_admits q d ⟨h1, h2, h3⟩
          simp only [List.foldl_cons, hq, ih]
          simp [admittedFrom, h1, h2, h3, List.append_assoc]

theorem foldAdd_all_admitted (inputs : List String) :
    ∀ q : DomainQueue,
      (inputs.map sToLower).Nodup →
      (∀ d ∈ inputs, IsValidDomainS (sToLower d) = true) →
      (∀ d ∈ inputs, listMem (sToLower d) q.cache = false) →
      (∀ d ∈ inputs, listMem (sToLower d) q.Domains = false) →
      (List.foldl DomainQueue.Add q inputs).Domains =
        q.Domains ++ inputs.map sToLower := by
  induction inputs with
  | nil => intro q _ _ _ _; simp
  | cons d rest ih =>
    intro q hnd hval hcache hdom
    have hadm : admits q d :=
      ⟨hcache d (by simp), hval d (by simp), hdom d (by simp)⟩
    have hq := add_of_admits q d hadm
    have hd_not : sToLower d ∉ rest.map sToLower := by
      have := hnd
      simp only [List.map_cons, List.nodup_cons] at this
      exact this.1
    have hrest :=
      ih { q with Domains := q.Domains ++ [sToLower d], cache := sToLower d :: q.cache }
        (by
          simp only [List.map_cons, List.nodup_cons] at hnd
          exact hnd.2)
        (fun e he => hval e (by simp [he]))
        (fun e he => by
          rw [listMem_eq_false]
          intro hmem
          simp only [List.mem_cons] at hmem
          rcases hmem with heq | hmem
          · exact hd_not (heq ▸ List.mem_map_of_mem sToLower he)
          · exact (listMem_eq_false _ _).mp (hcache e (by simp [he])) hmem)
        (fun e he => by
          rw [listMem_eq_false]
          intro hmem
          simp only [List.mem_append, List.mem_singleton] at hmem
          rcases hmem with hmem | heq
          · exact (listMem_eq_false _ _).mp (hdom e (by simp [he])) hmem
          · exact hd_not (heq ▸ List.mem_map_of_mem sToLower he))
    simp only [List.foldl_cons, hq, hrest]
    simp [List.append_assoc]

/-- Claim C1 (counterexample): the claim quantifies over EVERY domain D,
but for the validator-rejected domain `x.local` two `Add` calls on a
fresh queue leave `Count` unchanged instead of increasing it by 1. -/
theorem claim1_counterexample :
    ¬ ((((NewDomainQueue ([]) 3600).Add ("x.local")).Add ("x.local")).Count
        = (NewDomainQueue ([]) 3600).Count + 1) := by
  decide

/-- Claim C1 (amended): every queue operation preserves the
no-duplicates invariant of the collection; a second `Add` of the same
domain before any drain never changes the state; and two `Add(D)` calls
increase `Count` by exactly 1 when the first call admits D (lowercased D
valid, not cache-resident, not already queued) and by 0 otherwise —
never by 2. -/
theorem claim1_queue_invariants (q : DomainQueue) (d : String)
    (h : q.Domains.Nodup) :
    (q.Add d).Domains.Nodup ∧
    (((q.Add d).Get).2).Domains.Nodup ∧
    ((q.Add d).Add d = q.Add d) ∧
    ((q.Add d).Count = q.Count + (if admits q d then 1 else 0)) ∧
    ((q.Add d).Add d).Count ≤ q.Count + 1 := by
  refine ⟨add_nodup q d h, ?_, queue_add_idem q d, add_count_eq q d, ?_⟩
  · simp [DomainQueue.Get]
  · rw [queue_add_idem q d, add_count_eq q d]
    by_cases ha : admits q d
    · simp [ha]
    · simp [ha]

/-- Witness for the amended C1 at a concrete admissible input. -/
theorem claim1_queue_invariants_witness :
    ((NewDomainQueue ([]) 3600).Add ("a.com")).Domains.Nodup ∧
    ((((NewDomainQueue ([]) 3600).Add ("a.com")).Get).2).Domains.Nodup ∧
    (((NewDomainQueue ([]) 3600).Add ("a.com")).Add ("a.com")
      = (NewDomainQueue ([]) 3600).Add ("a.com")) ∧
    (((NewDomainQueue ([]) 3600).Add ("a.com")).Count
      = (NewDomainQueue ([]) 3600).Count
        + (if admits (NewDomainQueue ([]) 3600) ("a.com") then 1 else 0)) ∧
    ((((NewDomainQueue ([]) 3600).Add ("a.com")).Add ("a.com")).Count
      ≤ (NewDomainQueue ([]) 3600).Count + 1) :=
  claim1_queue_invariants (NewDomainQueue ([]) 3600) ("a.com") (by decide)

/-- Claim C2: `Get` (Drain) returns the entire current collection in
insertion order and resets the collection, so `Count` is 0 afterwards
and the cache is untouched; and after a drain, the next drain returns
exactly the sequence of domains admitted in between, in admission order
(`admittedFrom` with an empty resident collection). The operation is a
total function: it never fails, and on an empty queue it returns the
empty sequence (first conjunct with `q.Domains = []`). -/
theorem claim2_drain (q : DomainQueue) (inputs : List String) :
    ((q.Get).1 = q.Domains) ∧
    (((q.Get).2).Count = 0) ∧
    (((q.Get).2).cache = q.cache) ∧
    (((List.foldl DomainQueue.Add ((q.Get).2) inputs).Get).1
      = admittedFrom q.cache ([]) inputs) := by
  refine ⟨rfl, rfl, rfl, ?_⟩
  show (List.foldl DomainQueue.Add ((q.Get).2) inputs).Domains = _
  rw [foldAdd_domains]
  rfl

/-- Claim C3: when the lowercased input is already a (non-expired) key
of the Dedup Cache, `Add` is a complete no-op: the queue state —
collection, cache, everything — is returned unchanged, so `Count` is
unchanged and no cache write happens. -/
theorem claim3_cache_gated (q : DomainQueue) (d : String)
    (h : listMem (sToLower d) q.cache = true) :
    q.Add d = q := by
  simp [DomainQueue.Add, h]

/-- Witness for C3: a cache holding `example.com` suppresses
`Add("EXAMPLE.COM")` entirely. -/
theorem claim3_cache_gated_witness :
    (listMem (sToLower ("EXAMPLE.COM"))
        ((NewDomainQueue ([("example.com")]) 3600).cache) = true) ∧
    ((NewDomainQueue ([("example.com")]) 3600).Add ("EXAMPLE.COM")
      = NewDomainQueue ([("example.com")]) 3600) :=
  ⟨by decide,
   claim3_cache_gated (NewDomainQueue ([("example.com")]) 3600) ("EXAMPLE.COM")
     (by decide)⟩

/-- Claim C4: the end-to-end admission scenarios. Admitting
`a.com, A.COM, b.org, a.com` on a fresh queue yields `Count = 2`,
drain returns `[a.com, b.org]`, count is 0 afterwards; and
`EXAMPLE.COM` then `example.com` yields `Count = 1` with the drain
containing `example.com`. -/
theorem claim4_case_folding_scenarios :
    ((((((NewDomainQueue ([]) 3600).Add ("a.com")).Add ("A.COM")).Add
        ("b.org")).Add ("a.com")).Count = 2) ∧
    (((((((NewDomainQueue ([]) 3600).Add ("a.com")).Add ("A.COM")).Add
        ("b.org")).Add ("a.com")).Get).1 = [("a.com"), ("b.org")]) ∧
    ((((((((NewDomainQueue ([]) 3600).Add ("a.com")).Add ("A.COM")).Add
        ("b.org")).Add ("a.com")).Get).2).Count = 0) ∧
    ((((NewDomainQueue ([]) 3600).Add ("EXAMPLE.COM")).Add
        ("example.com")).Count = 1) ∧
    (listMem ("example.com")
        (((((NewDomainQueue ([]) 3600).Add ("EXAMPLE.COM")).Add
          ("example.com")).Get).1) = true) := by
  decide

/-- Claim C9: the queue's lock serializes all Add calls, so a concurrent
run of producers is observationally some interleaving of their Add
calls. For every such interleaving `ds` of pairwise-distinct
(after lowercasing), valid, not-cache-resident domains — in particular
M producers with K unique non-overlapping domains each, giving
`ds.length = M*K` — the final count is exactly `ds.length`, and the
collection holds exactly the lowercased domains: none lost, none
duplicated. -/
theorem claim9_serialized_producers (ds cache : List String) (ttl : Int)
    (h1 : (ds.map sToLower).Nodup)
    (h2 : ∀ d ∈ ds, IsValidDomainS (sToLower d) = true)
    (h3 : ∀ d ∈ ds, listMem (sToLower d) cache = false) :
    ((List.foldl DomainQueue.Add (NewDomainQueue cache ttl) ds).Count
      = ds.length) ∧
    ((List.foldl DomainQueue.Add (NewDomainQueue cache ttl) ds).Domains
      = ds.map sToLower) := by
  have h4 : ∀ d ∈ ds, listMem (sToLower d) (NewDomainQueue cache ttl).Domains = false := by
    intro d _
    rfl
  have hdom := foldAdd_all_admitted ds (NewDomainQueue cache ttl) h1 h2 h3 h4
  have hdom' : (List.foldl DomainQueue.Add (NewDomainQueue cache ttl) ds).Domains
      = ds.map sToLower := by
    rw [hdom]
    rfl
  refine ⟨?_, hdom'⟩
  show (List.foldl DomainQueue.Add _ ds).Domains.length = ds.length
  rw [hdom', List.length_map]

/-- Witness for C9: two producers with two unique domains each
(`M = K = 2`), in one interleaving; the count is 4 = M*K. -/
theorem claim9_serialized_producers_witness :
    ((List.foldl DomainQueue.Add (NewDomainQueue ([]) 3600)
        ([("a.com"), ("b.net"), ("c.org"), ("d.info")])).Count
      = ([("a.com"), ("b.net"), ("c.org"), ("d.info")] : List String).length) ∧
    ((List.foldl DomainQueue.Add (NewDomainQueue ([]) 3600)
        ([("a.com"), ("b.net"), ("c.org"), ("d.info")])).Domains
      = ([("a.com"), ("b.net"), ("c.org"), ("d.info")] : List String).map sToLower) :=
  claim9_serialized_producers ([("a.com"), ("b.net"), ("c.org"), ("d.info")])
    ([]) 3600 (by decide) (by decide) (by decide)

theorem mem_initsL (w : List Char) : ∀ x, x ∈ initsL w ↔ ∃ t, w = x ++ t := by
  induction w with
  | nil =>
    intro x
    constructor
    · intro hx
      simp only [initsL, List.mem_singleton] at hx
      exact ⟨[], by simp [hx]⟩
    · rintro ⟨t, ht⟩
      have hx : x = [] := by
        cases x with
        | nil => rfl
        | cons a as => simp at ht
      simp [initsL, hx]
  | cons c rest ih =>
    intro x
    constructor
    · intro hx
      simp only [initsL, List.mem_cons, List.mem_map] at hx
      rcases hx with hx | ⟨p, hp, hpx⟩
      · exact ⟨c :: rest, by simp [hx]⟩
      · obtain ⟨t, ht⟩ := (ih p).mp hp
        exact ⟨t, by simp [← hpx, ht]⟩
    · rintro ⟨t, ht⟩
      cases x with
      | nil => simp [initsL]
      | cons a as =>
        simp only [List.cons_append, List.cons.injEq] at ht
        obtain ⟨hac, hrest⟩ := ht
        subst hac
        have : as ∈ initsL rest := (ih as).mpr ⟨t, hrest⟩
        simp only [initsL, List.mem_cons, List.mem_map]
        exact Or.inr ⟨as, this, rfl⟩

theorem mem_tailsL (w : List Char) : ∀ x, x ∈ tailsL w ↔ ∃ p, w = p ++ x := by
  induction w with
  | nil =>
    intro x
    constructor
    · intro hx
      simp only [tailsL, List.mem_singleton] at hx
      exact ⟨[], by simp [hx]⟩
    · rintro ⟨p, hp⟩
      have hx : x = [] := by
        cases p with
        | nil => simpa using hp.symm
        | cons a as => simp at hp
      simp [tailsL, hx]
  | cons c rest ih =>
    intro x
    constructor
    · intro hx
      simp only [tailsL, List.mem_cons] at hx
      rcases hx with hx | hx
      · exact ⟨[], by simp [hx]⟩
      · obtain ⟨p, hp⟩ := (ih x).mp hx
        exact ⟨c :: p, by simp [hp]⟩
    · rintro ⟨p, hp⟩
      cases p with
      | nil =>
        simp only [List.nil_append] at hp
        simp [tailsL, ← hp]
      | cons a as =>
        simp only [List.cons_append, List.cons.injEq] at hp
        obtain ⟨_, hrest⟩ := hp
        have : x ∈ tailsL rest := (ih x).mpr ⟨as, hrest⟩
        simp [tailsL, this]

theorem isDomainL_iff (w : List Char) :
    IsDomainL w = true ↔
      ∃ pre mid post, w = pre ++ mid ++ post ∧ dnsAnchored mid = true := by
  unfold IsDomainL
  rw [List.any_eq_true]
  constructor
  · rintro ⟨t, ht, hin⟩
    rw [List.any_eq_true] at hin
    obtain ⟨mid, hmid, hdns⟩ := hin
    obtain ⟨pre, hpre⟩ := (mem_tailsL w t).mp ht
    obtain ⟨post, hpost⟩ := (mem_initsL t mid).mp hmid
    exact ⟨pre, mid, post, by rw [hpre, hpost, List.append_assoc], hdns⟩
  · rintro ⟨pre, mid, post, heq, hdns⟩
    refine ⟨mid ++ post, (mem_tailsL w (mid ++ post)).mpr ⟨pre, by rw [heq, List.append_assoc]⟩, ?_⟩
    rw [List.any_eq_true]
    exact ⟨mid, (mem_initsL (mid ++ post) mid).mpr ⟨post, rfl⟩, hdns⟩

theorem splitDots_ne_nil (w : List Char) : splitDots w ≠ [] := by
  cases w with
  | nil => simp [splitDots]
  | cons c rest =>
    by_cases h : c = '.'
    · simp [splitDots, h]
    · simp only [splitDots, if_neg h]
      cases hs : splitDots rest with
      | nil => simp
      | cons p ps => simp

theorem splitDots_unsplit (w : List Char) : unsplitDots (splitDots w) = w := by
  induction w with
  | nil => rfl
  | cons c rest ih =>
    by_cases h : c = '.'
    · subst h
      simp only [splitDots, if_pos rfl]
      cases hs : splitDots rest with
      | nil => exact absurd hs (splitDots_ne_nil rest)
      | cons p ps =>
        rw [hs] at ih
        simp [unsplitDots, ih]
    · simp only [splitDots, if_neg h]
      cases hs : splitDots rest with
      | nil => exact absurd hs (splitDots_ne_nil rest)
      | cons p ps =>
        rw [hs] at ih
        cases ps with
        | nil =>
          simp only [unsplitDots] at ih ⊢
          rw [ih]
        | cons q qs =>
          simp only [unsplitDots] at ih ⊢
          rw [List.cons_append, ih]

theorem unsplit_append_last (f : List Char) :
    ∀ ps, unsplitDots (ps ++ [f]) = (ps.map (fun l => l ++ ['.'])).flatten ++ f := by
  intro ps
  induction ps with
  | nil => simp [unsplitDots]
  | cons p ps ih =>
    cases ps with
    | nil => simp [unsplitDots]
    | cons q qs =>
      simp only [List.cons_append, unsplitDots, List.append_eq] at ih ⊢
      rw [ih]
      simp

theorem splitDots_dotfree_prepend (a : List Char) :
    ∀ b p ps, (∀ c ∈ a, ¬ c = '.') → splitDots b = p :: ps →
      splitDots (a ++ b) = (a ++ p) :: ps := by
  induction a with
  | nil =>
    intro b p ps _ hb
    simpa using hb
  | cons c as ih =>
    intro b p ps hfree hb
    have hc : ¬ c = '.' := hfree c (by simp)
    have has : ∀ x ∈ as, ¬ x = '.' := fun x hx => hfree x (by simp [hx])
    simp only [List.cons_append, splitDots, if_neg hc, List.append_eq]
    rw [ih b p ps has hb]

theorem splitDots_dotfree (a : List Char) (h : ∀ c ∈ a, ¬ c = '.') :
    splitDots a = [a] := by
  have := splitDots_dotfree_prepend a ([]) ([]) ([]) h (by rfl)
  simpa using this

theorem all_isAlH_dotfree (l : List Char) (h : l.all isAlH = true) :
    ∀ c ∈ l, ¬ c = '.' := by
  intro c hc hdot
  subst hdot
  have := (List.all_eq_true.mp h) '.' hc
  simp [isAlH, isAl] at this

theorem labelOK_dotfree (l : List Char) (h : labelOK l = true) :
    ∀ c ∈ l, ¬ c = '.' := by
  apply all_isAlH_dotfree
  simp only [labelOK, Bool.and_eq_true] at h
  exact h.1.1.2

theorem finalOK_dotfree (l : List Char) (h : finalOK l = true) :
    ∀ c ∈ l, ¬ c = '.' := by
  apply all_isAlH_dotfree
  simp only [finalOK, Bool.and_eq_true] at h
  exact h.1.1.2

theorem splitDots_label_flatten (f : List Char) (hf : ∀ c ∈ f, ¬ c = '.') :
    ∀ ls : List (List Char), (∀ l ∈ ls, ∀ c ∈ l, ¬ c = '.') →
      splitDots ((ls.map (fun l => l ++ ['.'])).flatten ++ f) = ls ++ [f] := by
  intro ls
  induction ls with
  | nil =>
    intro _
    simpa using splitDots_dotfree f hf
  | cons l ls ih =>
    intro hfree
    have hl : ∀ c ∈ l, ¬ c = '.' := hfree l (by simp)
    have hls : ∀ x ∈ ls, ∀ c ∈ x, ¬ c = '.' := fun x hx => hfree x (by simp [hx])
    have hx : ((l :: ls).map (fun l => l ++ ['.'])).flatten ++ f
        = l ++ ('.' :: ((ls.map (fun l => l ++ ['.'])).flatten ++ f)) := by
      simp
    rw [hx]
    have hstep : splitDots ('.' :: ((ls.map (fun l => l ++ ['.'])).flatten ++ f))
        = [] :: splitDots ((ls.map (fun l => l ++ ['.'])).flatten ++ f) := by
      simp [splitDots]
    have hsplit_tail : splitDots ('.' :: ((ls.map (fun l => l ++ ['.'])).flatten ++ f))
        = [] :: (ls ++ [f]) := by
      rw [hstep, ih hls]
    rw [splitDots_dotfree_prepend l _ ([]) (ls ++ [f]) hl hsplit_tail]
    simp

theorem dnsAnchored_iff_inLang (w : List Char) :
    dnsAnchored w = true ↔ InLang w := by
  constructor
  · intro h
    have hne := splitDots_ne_nil w
    unfold dnsAnchored at h
    rw [List.getLast?_eq_getLast _ hne] at h
    simp only [Bool.and_eq_true, decide_eq_true_eq] at h
    obtain ⟨⟨hlen, hall⟩, hfin⟩ := h
    refine ⟨(splitDots w).dropLast, (splitDots w).getLast hne, ?_, ?_, hfin, ?_⟩
    · have : (splitDots w).dropLast.length = (splitDots w).length - 1 :=
        List.length_dropLast _
      intro hc
      rw [hc] at this
      simp at this
      omega
    · exact fun l hl => List.all_eq_true.mp hall l hl
    · have hdecomp : (splitDots w).dropLast ++ [(splitDots w).getLast hne] = splitDots w :=
        List.dropLast_append_getLast hne
      calc w = unsplitDots (splitDots w) := (splitDots_unsplit w).symm
        _ = unsplitDots ((splitDots w).dropLast ++ [(splitDots w).getLast hne]) := by
            rw [hdecomp]
        _ = _ := unsplit_append_last _ _
  · rintro ⟨ls, f, hne, hlab, hfin, heq⟩
    have hdf_ls : ∀ l ∈ ls, ∀ c ∈ l, ¬ c = '.' := fun l hl =>
      labelOK_dotfree l (hlab l hl)
    have hdf_f : ∀ c ∈ f, ¬ c = '.' := finalOK_dotfree f hfin
    have hsplit : splitDots w = ls ++ [f] := by
      rw [heq]
      exact splitDots_label_flatten f hdf_f ls hdf_ls
    unfold dnsAnchored
    rw [hsplit, List.getLast?_concat]
    show (decide (2 ≤ (ls ++ [f]).length) && (ls ++ [f]).dropLast.all labelOK && finalOK f)
      = true
    have h2 : 2 ≤ (ls ++ [f]).length := by
      have : 0 < ls.length := List.length_pos.mpr hne
      simp only [List.length_append, List.length_singleton]
      omega
    have hdl : (ls ++ [f]).dropLast = ls := List.dropLast_concat
    simp only [Bool.and_eq_true, decide_eq_true_eq, hdl]
    exact ⟨⟨h2, List.all_eq_true.mpr hlab⟩, hfin⟩

theorem isValidDomainL_iff (w : List Char) :
    IsValidDomainL w = true ↔
      (3 ≤ w.length ∧ w.length ≤ 253 ∧
       hasSuffixL w ((".local").data) = false ∧
       hasSuffixL w ((".localhost").data) = false ∧
       2 ≤ (splitDots w).length ∧
       ∃ pre mid post, w = pre ++ mid ++ post ∧ InLang mid) := by
  unfold IsValidDomainL
  split_ifs with h1 h2 h3
  · constructor
    · intro h
      exact h.elim
    · rintro ⟨ha, hb, -⟩
      exact ((by rcases h1 with h | h <;> omega : False)).elim
  · constructor
    · intro h
      exact h.elim
    · rintro ⟨-, -, hloc, hlocal, -⟩
      rcases h2 with h | h
      · rw [hloc] at h
        exact absurd h Bool.false_ne_true
      · rw [hlocal] at h
        exact absurd h Bool.false_ne_true
  · constructor
    · intro h
      exact h.elim
    · rintro ⟨-, -, -, -, hp, -⟩
      exact ((by omega : False)).elim
      
  · rw [not_or] at h1 h2
    obtain ⟨h1a, h1b⟩ := h1
    obtain ⟨h2a, h2b⟩ := h2
    rw [Bool.not_eq_true] at h2a h2b
    rw [isDomainL_iff]
    constructor
    · rintro ⟨pre, mid, post, heq, hdns⟩
      exact ⟨by omega, by omega, h2a, h2b, by omega, pre, mid, post, heq,
        (dnsAnchored_iff_inLang mid).mp hdns⟩
    · rintro ⟨-, -, -, -, -, pre, mid, post, heq, hin⟩
      exact ⟨pre, mid, post, heq, (dnsAnchored_iff_inLang mid).mpr hin⟩

/-- Claim C5 (counterexample): `IsValidDomain` is NOT an exact decision
procedure for the spec's admissible-domain predicate. `-ab.cd` fails the
whole-string grammar (its first label starts with `-`) yet is accepted,
because the regex search finds the embedded match `ab.cd`; conversely
`a.b` satisfies the spec's grammar (labels of 1-63 chars) yet is
rejected, because the regex requires the final label to have at least
two characters. -/
theorem claim5_counterexample :
    (IsValidDomainL (("-ab.cd").data) = true ∧
     SpecAdmissible (("-ab.cd").data) = false) ∧
    (IsValidDomainL (("a.b").data) = false ∧
     SpecAdmissible (("a.b").data) = true) := by
  decide

/-- Claim C5 (amended): `IsValidDomain(candidate)` returns true exactly
when the candidate has length in [3,253], at least two dot-separated
parts, does not end in `.local`/`.localhost`, and CONTAINS (as a
contiguous substring, not necessarily the whole string) a match of the
DNS grammar: one or more labels of 1-63 chars over `[a-z0-9-]` starting
and ending alphanumeric, each followed by a dot, then a final such label
of 2-63 chars — all lowercase. -/
theorem claim5_validator_exact (w : List Char) :
    IsValidDomainL w = true ↔
      (3 ≤ w.length ∧ w.length ≤ 253 ∧
       hasSuffixL w ((".local").data) = false ∧
       hasSuffixL w ((".localhost").data) = false ∧
       2 ≤ (splitDots w).length ∧
       ∃ pre mid post, w = pre ++ mid ++ post ∧ InLang mid) :=
  isValidDomainL_iff w

/-- Witness instantiating the amended C5 at a concrete accepted input. -/
theorem claim5_validator_exact_witness :
    IsValidDomainL (("ab.cd").data) = true ↔
      (3 ≤ (("ab.cd").data).length ∧ (("ab.cd").data).length ≤ 253 ∧
       hasSuffixL (("ab.cd").data) ((".local").data) = false ∧
       hasSuffixL (("ab.cd").data) ((".localhost").data) = false ∧
       2 ≤ (splitDots (("ab.cd").data)).length ∧
       ∃ pre mid post, ("ab.cd").data = pre ++ mid ++ post ∧ InLang mid) :=
  claim5_validator_exact (("ab.cd").data)

/-- Claim C6: the grammar check is a non-anchored search. Any candidate
that passes the length check, has at least two dot-separated parts, does
not end in `.local`/`.localhost` and contains a valid DNS name as a
substring is accepted by `IsValidDomain` — even when the candidate as a
whole fails the structural grammar (hypothesis `h7`). -/
theorem claim6_nonanchored_accept (w : List Char)
    (h1 : 3 ≤ w.length) (h2 : w.length ≤ 253)
    (h3 : 2 ≤ (splitDots w).length)
    (h4 : hasSuffixL w ((".local").data) = false)
    (h5 : hasSuffixL w ((".localhost").data) = false)
    (h6 : ∃ pre mid post, w = pre ++ mid ++ post ∧ InLang mid)
    (h7 : (splitDots w).all specGrammarLabel = false) :
    IsValidDomainL w = true :=
  (isValidDomainL_iff w).mpr ⟨h1, h2, h4, h5, h3, h6⟩

/-- Witness for C6: `-ab.cd` is not a well-formed DNS name as a whole
(first label starts with `-`) but contains the match `ab.cd`, and is
accepted. -/
theorem claim6_nonanchored_accept_witness :
    IsValidDomainL (("-ab.cd").data) = true :=
  claim6_nonanchored_accept (("-ab.cd").data) (by decide) (by decide)
    (by decide) (by decide) (by decide)
    ⟨['-'], ("ab.cd").data, [], by decide,
      ⟨[['a', 'b']], ['c', 'd'], by decide, by decide, by decide, by decide⟩⟩
    (by decide)

/-- Claim C10: the validator is case-sensitive on its raw input: the
regex character classes hold only lowercase letters and digits. So
`IsValidDomain("EXAMPLE.COM")` is false; the tcpdump source's field
filter, which validates BEFORE any lowercasing, therefore drops the
all-uppercase candidate `EXAMPLE.COM.` without touching the queue, even
though the lowercased form would be admissible. In general, a string
with no `[a-z0-9]` character at all can never pass the regex search. -/
theorem claim10_case_sensitive_validator :
    (IsValidDomainS ("EXAMPLE.COM") = false) ∧
    (∀ q : DomainQueue, processField q ("EXAMPLE.COM.") = q) ∧
    (sToLower ("EXAMPLE.COM") = ("example.com")) ∧
    (IsValidDomainS ("example.com") = true) ∧
    (∀ w : List Char, (∀ c ∈ w, isAl c = false) → IsDomainL w = false) := by
  refine ⟨by decide, ?_, by decide, by decide, ?_⟩
  · intro q
    unfold processField
    rw [if_neg (by decide)]
    show (if IsValidDomainS
        (String.mk (trimSuffixL (("EXAMPLE.COM.").data) ((".").data))) = false
      then q else _) = q
    rw [if_pos (by decide)]
  · intro w hw
    rw [Bool.eq_false_iff]
    intro htrue
    obtain ⟨pre, mid, post, heq, hdns⟩ := (isDomainL_iff w).mp htrue
    obtain ⟨ls, f, -, -, hfin, hmid⟩ := (dnsAnchored_iff_inLang mid).mp hdns
    simp only [finalOK, Bool.and_eq_true] at hfin
    have hhead : headAl f = true := hfin.1.2
    obtain ⟨c, frest, hf⟩ : ∃ c frest, f = c :: frest := by
      cases f with
      | nil => simp [headAl] at hhead
      | cons c frest => exact ⟨c, frest, rfl⟩
    have hcAl : isAl c = true := by
      rw [hf] at hhead
      simpa [headAl] using hhead
    have hcw : c ∈ w := by
      rw [heq, hmid, hf]
      simp
    have := hw c hcw
    rw [hcAl] at this
    exact Bool.false_ne_true this.symm

/-- Witness for C10's general conjunct at the concrete uppercase
candidate. -/
theorem claim10_case_sensitive_validator_witness :
    IsDomainL (("EXAMPLE.COM").data) = false ∧
    processField (NewDomainQueue ([]) 3600) ("EXAMPLE.COM.")
      = NewDomainQueue ([]) 3600 :=
  ⟨claim10_case_sensitive_validator.2.2.2.2 (("EXAMPLE.COM").data) (by decide),
   claim10_case_sensitive_validator.2.1 (NewDomainQueue ([]) 3600)⟩

theorem chunks1024_nil : chunks1024 ([]) = [] := by
  unfold chunks1024
  rfl

theorem chunks1024_cons (ds : List String) (h : ¬ ds = []) :
    chunks1024 ds = ds.take 1024 :: chunks1024 (ds.drop 1024) := by
  conv_lhs => unfold chunks1024
  rw [dif_neg h]

theorem queueTick_calls (client : List String → Bool) :
    ∀ n ds i, ds.length - i ≤ n →
      (queueTick client ds i).map Prod.fst = chunks1024 (ds.drop i) := by
  intro n
  induction n with
  | zero =>
    intro ds i h
    have hni : ¬ i < ds.length := by omega
    unfold queueTick
    rw [dif_neg hni]
    have hd : ds.drop i = [] := by
      rw [List.drop_eq_nil_iff]
      omega
    rw [hd, chunks1024_nil]
    try simp
  | succ n ih =>
    intro ds i h
    by_cases hi : i < ds.length
    · have hne : ¬ ds.drop i = [] := by
        rw [List.drop_eq_nil_iff]
        omega
      unfold queueTick
      rw [dif_pos hi]
      simp only [List.map_cons]
      rw [ih ds (i + 1024) (by omega)]
      rw [chunks1024_cons _ hne]
      have hdd : (ds.drop i).drop 1024 = ds.drop (i + 1024) := by
        rw [List.drop_drop]
        try rw [Nat.add_comm]
      rw [hdd]
    · unfold queueTick
      rw [dif_neg hi]
      have hd : ds.drop i = [] := by
        rw [List.drop_eq_nil_iff]
        omega
      rw [hd, chunks1024_nil]
      try simp

theorem chunks1024_spec :
    ∀ n ds, ds.length ≤ n →
      ((chunks1024 ds).flatten = ds ∧
       (chunks1024 ds).length = (ds.length + 1023) / 1024 ∧
       (∀ c ∈ (chunks1024 ds).dropLast, c.length = 1024) ∧
       (∀ c ∈ chunks1024 ds, 1 ≤ c.length ∧ c.length ≤ 1024)) := by
  intro n
  induction n with
  | zero =>
    intro ds h
    have hds : ds = [] := List.eq_nil_of_length_eq_zero (by omega)
    subst hds
    rw [chunks1024_nil]
    refine ⟨rfl, by simp, by simp, by simp⟩
  | succ n ih =>
    intro ds h
    by_cases hds : ds = []
    · subst hds
      rw [chunks1024_nil]
      refine ⟨rfl, by simp, by simp, by simp⟩
    · have hpos : 0 < ds.length := List.length_pos.mpr hds
      have hlen_drop : (ds.drop 1024).length = ds.length - 1024 := List.length_drop _ _
      obtain ⟨ihf, ihl, ihd, ihm⟩ := ih (ds.drop 1024) (by omega)
      rw [chunks1024_cons ds hds]
      refine ⟨?_, ?_, ?_, ?_⟩
      · simp only [List.flatten_cons, ihf]
        exact List.take_append_drop 1024 ds
      · simp only [List.length_cons, ihl, hlen_drop]
        omega
      · intro c hc
        by_cases hrest : ds.drop 1024 = []
        · rw [hrest, chunks1024_nil] at hc
          simp at hc
        · have hgt : 1024 < ds.length := by
            rw [List.drop_eq_nil_iff] at hrest
            omega
          cases hrc : chunks1024 (ds.drop 1024) with
          | nil =>
            rw [chunks1024_cons _ hrest] at hrc
            exact absurd hrc (by simp)
          | cons r rs =>
            rw [hrc] at hc
            rw [List.dropLast_cons₂] at hc
            rcases List.mem_cons.mp hc with hc | hc
            · subst hc
              rw [List.length_take]
              omega
            · rw [← hrc] at hc
              exact ihd c hc
      · intro c hc
        rcases List.mem_cons.mp hc with hc | hc
        · subst hc
          rw [List.length_take]
          omega
        · exact ihm c hc

/-- Claim C7: on a tick the submitter attempts exactly the chunk
decomposition of the drained list: consecutive slices in original
order whose concatenation is the drained list, `ceil(N/1024)` of them,
all of length 1024 except possibly the last (every chunk is nonempty and
at most 1024 long); zero chunks for `N = 0`; one full chunk for
`N = 1024`; chunks of sizes 1024 and 1 for `N = 1025`. -/
theorem claim7_chunking (client : List String → Bool) (ds : List String) :
    ((queueTick client ds 0).map Prod.fst = chunks1024 ds) ∧
    ((chunks1024 ds).length = (ds.length + 1023) / 1024) ∧
    ((chunks1024 ds).flatten = ds) ∧
    (∀ c ∈ (chunks1024 ds).dropLast, c.length = 1024) ∧
    (∀ c ∈ chunks1024 ds, 1 ≤ c.length ∧ c.length ≤ 1024) ∧
    (chunks1024 ([]) = []) ∧
    (ds.length = 1024 → (chunks1024 ds).map List.length = [1024]) ∧
    (ds.length = 1025 → (chunks1024 ds).map List.length = [1024, 1]) := by
  obtain ⟨hf, hl, hd, hm⟩ := chunks1024_spec ds.length ds (le_refl _)
  refine ⟨?_, hl, hf, hd, hm, chunks1024_nil, ?_, ?_⟩
  · have := queueTick_calls client ds.length ds 0 (by omega)
    simpa using this
  · intro h1024
    have hne : ¬ ds = [] := by
      intro hc
      rw [hc] at h1024
      simp at h1024
    have hdrop : ds.drop 1024 = [] := by
      rw [List.drop_eq_nil_iff]
      omega
    rw [chunks1024_cons ds hne, hdrop, chunks1024_nil]
    simp [List.length_take, h1024]
  · intro h1025
    have hne : ¬ ds = [] := by
      intro hc
      rw [hc] at h1025
      simp at h1025
    have hlen_drop : (ds.drop 1024).length = 1 := by
      rw [List.length_drop, h1025]
    have hne2 : ¬ ds.drop 1024 = [] := by
      intro hc
      rw [hc] at hlen_drop
      simp at hlen_drop
    have hdrop2 : (ds.drop 1024).drop 1024 = [] := by
      rw [List.drop_eq_nil_iff, hlen_drop]
      omega
    rw [chunks1024_cons ds hne, chunks1024_cons _ hne2, hdrop2, chunks1024_nil]
    simp [List.length_take, h1025, hlen_drop]

/-- Witness exercising C7's conditional conjunct at a concrete drained
list of 1025 domains: chunk sizes 1024 and 1. -/
theorem claim7_chunking_witness :
    (chunks1024 (List.replicate 1025 ("a"))).map List.length = [1024, 1] :=
  (claim7_chunking (fun _ => true) (List.replicate 1025 ("a"))).2.2.2.2.2.2.2
    (by simp)

/-- Claim C8: chunk failures are isolated. The sequence of delivery
attempts of one tick is exactly the chunk decomposition — each chunk
attempted exactly once, in order — and it does not depend on the
client's verdicts at all: a client failing any subset of chunks yields
the same attempt sequence as one that always succeeds, so chunks after
a failed one are still attempted, the failed chunk is not retried, and
its domains are not requeued (the attempts' concatenation is exactly
the drained list, once). -/
theorem claim8_failure_isolation (clientA clientB : List String → Bool)
    (ds : List String) :
    ((queueTick clientA ds 0).map Prod.fst = chunks1024 ds) ∧
    ((queueTick clientA ds 0).map Prod.fst
      = (queueTick clientB ds 0).map Prod.fst) ∧
    (((queueTick clientA ds 0).map Prod.fst).flatten = ds) := by
  have ha := queueTick_calls clientA ds.length ds 0 (by omega)
  have hb := queueTick_calls clientB ds.length ds 0 (by omega)
  simp only [List.drop_zero] at ha hb
  obtain ⟨hf, -, -, -⟩ := chunks1024_spec ds.length ds (le_refl _)
  exact ⟨ha, by rw [ha, hb], by rw [ha, hf]⟩
